import Mathlib

/-!
Shallow embedding of the two marketplace synchronisation modules
`seller.py` (Ozon) and `market.py` (Yandex.Market) of the repository,
together with proofs about the reconciliation, normalisation, batching
and driver logic.

Modelling conventions:
* Python dict feed records (`Код` / `Количество` / `Цена`) become the
  structure `Watch`.
* Python exceptions become the type `PyExc`; fallible functions return
  `Except PyExc _`.
* In-place mutation of the caller's `offer_ids` list by `create_stocks`
  is modelled by returning the final list alongside the payload.
* Machine-level details (HTTP, pandas, zipfile) are abstracted into
  parameters holding the values the network steps produced.
-/

/-- A feed record as parsed from the spreadsheet: the fields model the
Python dict keys `Код` (code), `Количество` (quantity) and `Цена` (price). -/
structure Watch where
  code : String
  quantity : String
  price : String
deriving DecidableEq, Repr

/-- The Python exceptions the drivers distinguish: `requests.exceptions.ReadTimeout`,
`requests.exceptions.ConnectionError`, and every other exception. -/
inductive PyExc where
  | readTimeout
  | connectionError (msg : String)
  | other (msg : String)
deriving DecidableEq, Repr

/-- Value of a list of ASCII digits read in base 10. -/
def digitsVal (l : List Char) : Nat :=
  l.foldl (fun a c => 10 * a + (c.toNat - 48)) 0

/-- Models Python `int(s)` on the strings this feed can produce: an optional
sign followed by one or more ASCII digits parses to the integer, anything
else raises `ValueError` (modelled as `none`). -/
def pyIntChars? : List Char → Option Int
  | [] => none
  | c :: rest =>
    if c = '-' then
      if rest ≠ [] ∧ rest.all Char.isDigit then some (-(digitsVal rest : Int)) else none
    else if c = '+' then
      if rest ≠ [] ∧ rest.all Char.isDigit then some ((digitsVal rest : Int)) else none
    else if (c :: rest).all Char.isDigit then some ((digitsVal (c :: rest) : Int)) else none

/-- Models Python `int(s)` on the strings this feed can produce. -/
def pyInt? (s : String) : Option Int :=
  pyIntChars? s.toList

/-- The quantity normalisation inlined in `create_stocks` of both modules
(`seller.py` lines 215-221, `market.py` lines 175-181): the string `">10"`
maps to 100, the string `"1"` maps to 0, and any other string goes through
Python `int`. -/
def normalizeQuantity (count : String) : Option Int :=
  if count = ">10" then some 100
  else if count = "1" then some 0
  else pyInt? count

/-- Models `price.split(".")[0]`: the prefix of `s` before the first
occurrence of `sep` (the whole string when `sep` does not occur). -/
def pySplitHead (s : String) (sep : Char) : String :=
  String.mk (s.toList.takeWhile (fun c => c ≠ sep))

/-- Models `re.sub("[^0-9]", "", s)`: delete every character outside the
class `0-9`. -/
def reSubKeepDigits (s : String) : String :=
  String.mk (s.toList.filter (fun c => decide ('0' ≤ c ∧ c ≤ '9')))

/-- `price_conversion` from `seller.py` lines 262-285 (also imported by
`market.py`): `re.sub("[^0-9]", "", price.split(".")[0])`. -/
def price_conversion (price : String) : String :=
  reSubKeepDigits (pySplitHead price '.')

/-- The price-normalisation algorithm as the spec words it: take the prefix
before the first decimal point and strip every non-digit character from it. -/
def specPriceNormalize (price : String) : String :=
  String.mk ((price.toList.takeWhile (fun c => c ≠ '.')).filter Char.isDigit)

/-- One slicing step of the `divide` generator, structurally recursive on
an iteration-count fuel. -/
def divideGo : Nat → List α → Nat → List (List α)
  | _, [], _ => []
  | _, _ :: _, 0 => []
  | 0, _ :: _, _ + 1 => []
  | fuel + 1, x :: xs, n + 1 =>
    (x :: xs).take (n + 1) :: divideGo fuel ((x :: xs).drop (n + 1)) (n + 1)

/-- `divide` from `seller.py` lines 288-307 (also imported by `market.py`):
`for i in range(0, len(lst), n): yield lst[i : i + n]`, collected into a
list of chunks; the fuel `lst.length` bounds the loop's iteration count.
Python raises `ValueError` for `n = 0`; the model returns `[]` there, and
every property below assumes `0 < n`. -/
def divide (lst : List α) (n : Nat) : List (List α) :=
  divideGo lst.length lst n

/-- The spec's "numeric string": one or more ASCII digits. -/
def isNumericString (s : String) : Bool :=
  s.toList ≠ [] && s.toList.all Char.isDigit

/-- The integer a numeric string denotes. -/
def numericValue (s : String) : Int :=
  (digitsVal s.toList : Int)

namespace seller

/-- One entry of the Ozon stock payload: `{"offer_id": ..., "stock": ...}`. -/
structure Stock where
  offer_id : String
  stock : Int
deriving DecidableEq, Repr

/-- The first loop of `create_stocks` (`seller.py` lines 213-223): walk the
feed records; each record whose code is in `offer_ids` contributes a payload
entry with the normalised quantity and removes its code from `offer_ids`
(Python `list.remove`, first occurrence).  A quantity that fails `int`
raises `ValueError`.  Returns the payload built so far and the final state
of the mutated `offer_ids` list. -/
def stocksLoop : List Watch → List String → Except PyExc (List Stock × List String)
  | [], offer_ids => .ok ([], offer_ids)
  | watch :: rest, offer_ids =>
    if watch.code ∈ offer_ids then
      match normalizeQuantity watch.quantity with
      | none => .error (.other "ValueError")
      | some stock =>
        match stocksLoop rest (offer_ids.erase watch.code) with
        | .error e => .error e
        | .ok (stocks, ids) => .ok (⟨watch.code, stock⟩ :: stocks, ids)
    else stocksLoop rest offer_ids

/-- `create_stocks` from `seller.py` lines 193-227.  After the matching
loop, every id still left in `offer_ids` gets a zero-stock entry.  The
second component is the final state of the caller's (mutated) `offer_ids`
list. -/
def create_stocks (watch_remnants : List Watch) (offer_ids : List String) :
    Except PyExc (List Stock × List String) :=
  match stocksLoop watch_remnants offer_ids with
  | .error e => .error e
  | .ok (stocks, rest) =>
    .ok (stocks ++ rest.map (fun offer_id => ⟨offer_id, 0⟩), rest)

/-- One entry of the Ozon price payload (`seller.py` lines 251-257). -/
structure Price where
  auto_action_enabled : String
  currency_code : String
  offer_id : String
  old_price : String
  price : String
deriving DecidableEq, Repr

/-- The price dict built for one matched feed record. -/
def mkPrice (watch : Watch) : Price :=
  ⟨"UNKNOWN", "RUB", watch.code, "0", price_conversion watch.price⟩

/-- `create_prices` from `seller.py` lines 230-259: one entry per feed
record whose code is in `offer_ids`; `offer_ids` is not mutated. -/
def create_prices : List Watch → List String → List Price
  | [], _ => []
  | watch :: rest, offer_ids =>
    if watch.code ∈ offer_ids then mkPrice watch :: create_prices rest offer_ids
    else create_prices rest offer_ids

/-- The price batches produced by `upload_prices` (`seller.py` lines
310-333): `divide(prices, 1000)` over `create_prices`. -/
def upload_prices_batches (watch_remnants : List Watch) (offer_ids : List String) :
    List (List Price) :=
  divide (create_prices watch_remnants offer_ids) 1000

/-- The stock batches produced by `upload_stocks` (`seller.py` lines
336-360): `divide(stocks, 100)` over `create_stocks`. -/
def upload_stocks_batches (watch_remnants : List Watch) (offer_ids : List String) :
    Except PyExc (List (List Stock)) :=
  match create_stocks watch_remnants offer_ids with
  | .error e => .error e
  | .ok (stocks, _) => .ok (divide stocks 100)

/-- Observable steps of one run of `seller.main`. -/
inductive Ev where
  | fetchOffers
  | fetchFeed
  | submitStocks (batch : List Stock)
  | submitPrices (batch : List Price)
deriving DecidableEq, Repr

/-- Trace of the body of `seller.main` (`seller.py` lines 363-383) on a run
whose network steps succeed, given the offer ids and feed the fetches
returned: fetch offer ids, fetch the feed, build the stock payload (note:
this mutates `offer_ids`), submit it in chunks of 100, build the price
payload from the SAME mutated list, submit it in chunks of 900. -/
def main_trace (watch_remnants : List Watch) (offer_ids : List String) :
    Except PyExc (List Ev) :=
  match create_stocks watch_remnants offer_ids with
  | .error e => .error e
  | .ok (stocks, rest) =>
    .ok ([Ev.fetchOffers, Ev.fetchFeed]
      ++ (divide stocks 100).map Ev.submitStocks
      ++ (divide (create_prices watch_remnants rest) 900).map Ev.submitPrices)

end seller

/-- Outcome of one driver run: completed, or an exception was caught by an
`except` clause and printed with a tag, or an exception escaped uncaught. -/
inductive Outcome where
  | ok
  | printed (tag : String)
  | uncaught (e : PyExc)
deriving DecidableEq, Repr

/-- The tag each `except` clause of `seller.main` / `market.main` prints
(the clauses are identical in both modules). -/
def exceptTag (e : PyExc) : String :=
  match e with
  | .readTimeout => "Превышено время ожидания..."
  | .connectionError _ => "Ошибка соединения"
  | .other _ => "ERROR_2"

namespace seller

/-- `seller.main` as a function of the outcomes of its effectful steps:
`offers` is what `get_offer_ids` produces, `feed` what `download_stock`
produces, `push` the result of each `update_stocks`/`update_price` call.
Everything after reading the environment happens inside the single
`try`/`except` block. -/
def main_model (offers : Except PyExc (List String)) (feed : Except PyExc (List Watch))
    (push : Except PyExc Unit) : Outcome :=
  match (do
      let offer_ids ← offers
      let watch_remnants ← feed
      let (stocks, rest) ← create_stocks watch_remnants offer_ids
      let _ ← (divide stocks 100).mapM (fun _ => push)
      let prices := create_prices watch_remnants rest
      let _ ← (divide prices 900).mapM (fun _ => push)
      pure () : Except PyExc Unit) with
  | .ok _ => .ok
  | .error e => .printed (exceptTag e)

end seller

namespace market

/-- One element of the `items` list of a Yandex.Market stock entry
(`market.py` lines 186-193). -/
structure StockItem where
  count : Int
  type : String
  updatedAt : String
deriving DecidableEq, Repr

/-- One entry of the Yandex.Market stock payload (`market.py` lines
182-194): `{"sku": ..., "warehouseId": ..., "items": [...]}`. -/
structure Stock where
  sku : String
  warehouseId : String
  items : List StockItem
deriving DecidableEq, Repr

/-- The stock dict built for one code/quantity pair; `date` models the
`datetime.datetime.utcnow()` timestamp computed once per call. -/
def mkStock (warehouse_id date : String) (code : String) (stock : Int) : Stock :=
  ⟨code, warehouse_id, [⟨stock, "FIT", date⟩]⟩

/-- The first loop of `create_stocks` (`market.py` lines 173-195): same
matching/normalising/removing logic as the Ozon module, different payload
shape. -/
def stocksLoop (warehouse_id date : String) :
    List Watch → List String → Except PyExc (List Stock × List String)
  | [], offer_ids => .ok ([], offer_ids)
  | watch :: rest, offer_ids =>
    if watch.code ∈ offer_ids then
      match normalizeQuantity watch.quantity with
      | none => .error (.other "ValueError")
      | some stock =>
        match stocksLoop warehouse_id date rest (offer_ids.erase watch.code) with
        | .error e => .error e
        | .ok (stocks, ids) =>
          .ok (mkStock warehouse_id date watch.code stock :: stocks, ids)
    else stocksLoop warehouse_id date rest offer_ids

/-- `create_stocks` from `market.py` lines 151-211; `date` models the
timestamp taken at the top of the function. -/
def create_stocks (watch_remnants : List Watch) (offer_ids : List String)
    (warehouse_id date : String) : Except PyExc (List Stock × List String) :=
  match stocksLoop warehouse_id date watch_remnants offer_ids with
  | .error e => .error e
  | .ok (stocks, rest) =>
    .ok (stocks ++ rest.map (fun offer_id => mkStock warehouse_id date offer_id 0), rest)

/-- The `price` sub-dict of a Yandex.Market price entry. -/
structure PriceValue where
  value : Int
  currencyId : String
deriving DecidableEq, Repr

/-- One entry of the Yandex.Market price payload (`market.py` lines
235-246). -/
structure Price where
  id : String
  price : PriceValue
deriving DecidableEq, Repr

/-- `create_prices` from `market.py` lines 214-248: one entry per feed
record whose code is in `offer_ids`; the price string goes through
`int(price_conversion(...))`, which raises `ValueError` on a string with
no digits. -/
def create_prices : List Watch → List String → Except PyExc (List Price)
  | [], _ => .ok []
  | watch :: rest, offer_ids =>
    if watch.code ∈ offer_ids then
      match pyInt? (price_conversion watch.price) with
      | none => .error (.other "ValueError")
      | some value =>
        match create_prices rest offer_ids with
        | .error e => .error e
        | .ok prices => .ok (⟨watch.code, ⟨value, "RUR"⟩⟩ :: prices)
    else create_prices rest offer_ids

/-- The price batches produced by `market.upload_prices` (`market.py` lines
251-274): `divide(prices, 500)` over `create_prices`. -/
def upload_prices_batches (watch_remnants : List Watch) (offer_ids : List String) :
    Except PyExc (List (List Price)) :=
  match create_prices watch_remnants offer_ids with
  | .error e => .error e
  | .ok prices => .ok (divide prices 500)

/-- The stock batches produced by `market.upload_stocks` (`market.py` lines
277-304): `divide(stocks, 2000)` over `create_stocks`. -/
def upload_stocks_batches (watch_remnants : List Watch) (offer_ids : List String)
    (warehouse_id date : String) : Except PyExc (List (List Stock)) :=
  match create_stocks watch_remnants offer_ids warehouse_id date with
  | .error e => .error e
  | .ok (stocks, _) => .ok (divide stocks 2000)

/-- Observable steps of one run of `market.main`; the campaign string
distinguishes the FBS and DBS passes. -/
inductive Ev where
  | fetchFeed
  | fetchOffers (campaign : String)
  | submitStocks (campaign : String) (batch : List Stock)
  | submitPrices (campaign : String) (batch : List Price)
deriving DecidableEq, Repr

/-- Trace of the body of `market.main` (`market.py` lines 307-352) on a run
whose network steps succeed, given the feed and the offer ids each
campaign's fetch returned: fetch the feed, then for each of FBS and DBS
fetch offer ids, build the stock payload, submit it in chunks of 2000.
The two `upload_prices(...)` calls (lines 337 and 346) invoke an `async
def` without `await`: each merely creates a coroutine object that is never
run, so they execute no requests and contribute no events. -/
def main_trace (watch_remnants : List Watch) (fbs_ids dbs_ids : List String)
    (wh_fbs wh_dbs date : String) : Except PyExc (List Ev) :=
  match create_stocks watch_remnants fbs_ids wh_fbs date with
  | .error e => .error e
  | .ok (stocks_fbs, _) =>
    match create_stocks watch_remnants dbs_ids wh_dbs date with
    | .error e => .error e
    | .ok (stocks_dbs, _) =>
      .ok ([Ev.fetchFeed, Ev.fetchOffers "FBS"]
        ++ (divide stocks_fbs 2000).map (Ev.submitStocks "FBS")
        ++ [Ev.fetchOffers "DBS"]
        ++ (divide stocks_dbs 2000).map (Ev.submitStocks "DBS"))

/-- `market.main` as a function of the outcomes of its effectful steps.
Unlike the Ozon driver, `download_stock()` (line 328) runs BEFORE the
`try` block, so a feed failure is never caught; the per-campaign fetches,
payload builds and stock submissions run inside the `try`.  The un-awaited
`upload_prices` coroutines execute nothing and so can raise nothing. -/
def main_model (feed : Except PyExc (List Watch))
    (offersFbs offersDbs : Except PyExc (List String))
    (push : Except PyExc Unit) (wh_fbs wh_dbs date : String) : Outcome :=
  match feed with
  | .error e => .uncaught e
  | .ok watch_remnants =>
    match (do
        let fbs_ids ← offersFbs
        let (stocks_fbs, _) ← create_stocks watch_remnants fbs_ids wh_fbs date
        let _ ← (divide stocks_fbs 2000).mapM (fun _ => push)
        let dbs_ids ← offersDbs
        let (stocks_dbs, _) ← create_stocks watch_remnants dbs_ids wh_dbs date
        let _ ← (divide stocks_dbs 2000).mapM (fun _ => push)
        pure () : Except PyExc Unit) with
    | .ok _ => .ok
    | .error e => .printed (exceptTag e)

end market

/-- The Yandex.Market stock entry carrying the same code/quantity as an
Ozon stock entry (used to relate the two structurally identical
`create_stocks` loops). -/
def toMarketStock (warehouse_id date : String) (s : seller.Stock) : market.Stock :=
  market.mkStock warehouse_id date s.offer_id s.stock

/-! ## Lemmas about the batcher `divide` -/

theorem divideGo_congr : ∀ (fuel : Nat) (l : List α) (n : Nat) (fuel' : Nat),
    l.length ≤ fuel → l.length ≤ fuel' → divideGo fuel l n = divideGo fuel' l n := by
  intro fuel l n
  induction fuel, l, n using divideGo.induct with
  | case1 fuel n =>
    intro fuel' _ _
    cases fuel <;> cases fuel' <;> rfl
  | case2 fuel x xs =>
    intro fuel' _ _
    cases fuel <;> cases fuel' <;> rfl
  | case3 x xs n =>
    intro fuel' h _
    simp at h
  | case4 fuel x xs n ih =>
    intro fuel' h h'
    cases fuel' with
    | zero => simp at h'
    | succ f =>
      rw [divideGo, divideGo]
      congr 1
      apply ih
      · simp only [List.length_drop, List.length_cons] at *
        omega
      · simp only [List.length_drop, List.length_cons] at *
        omega

theorem divide_cons (x : α) (xs : List α) (n : Nat) :
    divide (x :: xs) (n + 1) =
      (x :: xs).take (n + 1) :: divide ((x :: xs).drop (n + 1)) (n + 1) := by
  rw [divide, divide, List.length_cons, divideGo]
  congr 1
  apply divideGo_congr
  · simp only [List.length_drop, List.length_cons]
    omega
  · exact le_refl _

theorem divide_nil (n : Nat) : divide ([] : List α) n = [] := rfl

theorem divide_zero (l : List α) : divide l 0 = [] := by
  cases l <;> rfl

theorem divide_flatten (l : List α) (n : Nat) (hn : 0 < n) : (divide l n).flatten = l := by
  obtain ⟨m, rfl⟩ : ∃ m, n = m + 1 := ⟨n - 1, by omega⟩
  suffices h : ∀ (fuel : Nat) (l : List α), l.length ≤ fuel →
      (divideGo fuel l (m + 1)).flatten = l by
    exact h l.length l (le_refl _)
  intro fuel
  induction fuel with
  | zero =>
    intro l hl
    have hnil : l = [] := List.length_eq_zero.mp (by omega)
    subst hnil
    rfl
  | succ f ih =>
    intro l hl
    cases l with
    | nil => rfl
    | cons x xs =>
      have hlen : ((x :: xs).drop (m + 1)).length ≤ f := by
        simp only [List.length_drop, List.length_cons]
        simp only [List.length_cons] at hl
        omega
      rw [divideGo, List.flatten_cons, ih _ hlen]
      exact List.take_append_drop _ _

theorem divide_length (l : List α) (n : Nat) (hn : 0 < n) :
    (divide l n).length = (l.length + n - 1) / n := by
  obtain ⟨m, rfl⟩ : ∃ m, n = m + 1 := ⟨n - 1, by omega⟩
  suffices h : ∀ (fuel : Nat) (l : List α), l.length ≤ fuel →
      (divideGo fuel l (m + 1)).length = (l.length + (m + 1) - 1) / (m + 1) by
    exact h l.length l (le_refl _)
  intro fuel
  induction fuel with
  | zero =>
    intro l hl
    have hnil : l = [] := List.length_eq_zero.mp (by omega)
    subst hnil
    have h0 : (0 + (m + 1) - 1) / (m + 1) = 0 := Nat.div_eq_of_lt (by omega)
    simp only [divideGo, List.length_nil, h0]
  | succ f ih =>
    intro l hl
    cases l with
    | nil =>
      have h0 : (0 + (m + 1) - 1) / (m + 1) = 0 := Nat.div_eq_of_lt (by omega)
      simp only [divideGo, List.length_nil, h0]
    | cons x xs =>
      have hlen : ((x :: xs).drop (m + 1)).length ≤ f := by
        simp only [List.length_drop, List.length_cons]
        simp only [List.length_cons] at hl
        omega
      rw [divideGo]
      simp only [List.length_cons]
      rw [ih _ hlen]
      simp only [List.length_drop, List.length_cons]
      rcases le_or_lt (xs.length + 1) (m + 1) with h | h
      · have hA : (xs.length + 1 - (m + 1) + (m + 1) - 1) / (m + 1) = 0 :=
          Nat.div_eq_of_lt (by omega)
        have hB : xs.length + 1 + (m + 1) - 1 = xs.length + (m + 1) := by omega
        have hC : (xs.length + (m + 1)) / (m + 1) = xs.length / (m + 1) + 1 :=
          Nat.add_div_right _ (Nat.succ_pos m)
        have hD : xs.length / (m + 1) = 0 := Nat.div_eq_of_lt (by omega)
        rw [hA, hB, hC, hD]
      · have hE : xs.length + 1 - (m + 1) + (m + 1) - 1 = xs.length := by omega
        have hB : xs.length + 1 + (m + 1) - 1 = xs.length + (m + 1) := by omega
        have hC : (xs.length + (m + 1)) / (m + 1) = xs.length / (m + 1) + 1 :=
          Nat.add_div_right _ (Nat.succ_pos m)
        rw [hE, hB, hC]

theorem divide_chunk_le (l : List α) (n : Nat) :
    ∀ c ∈ divide l n, c.length ≤ n := by
  suffices h : ∀ (fuel : Nat) (l : List α), ∀ c ∈ divideGo fuel l n, c.length ≤ n by
    exact h l.length l
  intro fuel
  induction fuel with
  | zero =>
    intro l c hc
    cases l with
    | nil => simp [divideGo] at hc
    | cons x xs => cases n <;> simp [divideGo] at hc
  | succ f ih =>
    intro l c hc
    cases l with
    | nil => simp [divideGo] at hc
    | cons x xs =>
      cases n with
      | zero => simp [divideGo] at hc
      | succ m =>
        rw [divideGo] at hc
        rcases List.mem_cons.mp hc with rfl | hc
        · simp only [List.length_take]; omega
        · exact ih _ c hc

theorem divide_dropLast (l : List α) (n : Nat) :
    ∀ c ∈ (divide l n).dropLast, c.length = n := by
  suffices h : ∀ (fuel : Nat) (l : List α), l.length ≤ fuel →
      ∀ c ∈ (divideGo fuel l n).dropLast, c.length = n by
    exact h l.length l (le_refl _)
  intro fuel
  induction fuel with
  | zero =>
    intro l hl c hc
    have hnil : l = [] := List.length_eq_zero.mp (by omega)
    subst hnil
    simp [divideGo] at hc
  | succ f ih =>
    intro l hl c hc
    cases l with
    | nil => simp [divideGo] at hc
    | cons x xs =>
      cases n with
      | zero => simp [divideGo] at hc
      | succ m =>
        rw [divideGo] at hc
        rcases hrec : divideGo f ((x :: xs).drop (m + 1)) (m + 1) with _ | ⟨d, ds⟩
        · rw [hrec] at hc; simp at hc
        · rw [hrec] at hc
          rw [List.dropLast_cons_of_ne_nil (by simp)] at hc
          rcases List.mem_cons.mp hc with rfl | hc
          · have hne : (x :: xs).drop (m + 1) ≠ [] := by
              intro habs
              rw [habs] at hrec
              cases f <;> simp [divideGo] at hrec
            have hlen : m + 1 < (x :: xs).length := by
              by_contra hle
              push_neg at hle
              exact hne (List.drop_eq_nil_of_le hle)
            simp only [List.length_take]
            omega
          · have hlen : ((x :: xs).drop (m + 1)).length ≤ f := by
              simp only [List.length_drop, List.length_cons]
              simp only [List.length_cons] at hl
              omega
            exact ih _ hlen c (hrec ▸ hc)

theorem divide_sum_length (l : List α) (n : Nat) (hn : 0 < n) :
    ((divide l n).map List.length).sum = l.length := by
  have h := congrArg List.length (divide_flatten l n hn)
  rwa [List.length_flatten] at h

/-! ## Lemmas about the normalizers -/

theorem pyInt_on_digits (s : String) (h : isNumericString s = true) :
    pyInt? s = some (numericValue s) := by
  unfold isNumericString at h
  unfold pyInt? numericValue
  rcases hl : s.toList with _ | ⟨c, rest⟩
  · rw [hl] at h; simp at h
  · rw [hl] at h
    simp only [Bool.and_eq_true, List.all_cons] at h
    have hc : c.isDigit = true := h.2.1
    have hrest : rest.all Char.isDigit = true := h.2.2
    rw [pyIntChars?]
    rw [if_neg (by rintro rfl; simp at hc), if_neg (by rintro rfl; simp at hc),
      if_pos (by simp [hc, hrest])]

theorem char_digit_iff (c : Char) : (decide ('0' ≤ c ∧ c ≤ '9')) = c.isDigit := by
  simp [Char.isDigit, Char.le_def]

namespace seller

theorem stocksLoop_perm (wr : List Watch) : ∀ ids st rest,
    stocksLoop wr ids = .ok (st, rest) → (st.map Stock.offer_id ++ rest).Perm ids := by
  induction wr with
  | nil =>
    intro ids st rest h
    simp only [stocksLoop, Except.ok.injEq, Prod.mk.injEq] at h
    obtain ⟨rfl, rfl⟩ := h
    simp
  | cons w ws ih =>
    intro ids st rest h
    rw [stocksLoop] at h
    by_cases hin : w.code ∈ ids
    · rw [if_pos hin] at h
      cases hq : normalizeQuantity w.quantity with
      | none => rw [hq] at h; exact absurd h (by simp)
      | some q =>
        rw [hq] at h
        cases hrec : stocksLoop ws (ids.erase w.code) with
        | error e => rw [hrec] at h; exact absurd h (by simp)
        | ok p =>
          obtain ⟨st', ids'⟩ := p
          rw [hrec] at h
          simp only [Except.ok.injEq, Prod.mk.injEq] at h
          obtain ⟨rfl, rfl⟩ := h
          have hperm := ih _ _ _ hrec
          simp only [List.map_cons, List.cons_append]
          exact (hperm.cons w.code).trans (List.perm_cons_erase hin).symm
    · rw [if_neg hin] at h
      exact ih ids st rest h

theorem stocksLoop_rest (wr : List Watch) : ∀ ids st rest, ids.Nodup →
    stocksLoop wr ids = .ok (st, rest) →
    rest = ids.filter (fun i => i ∉ wr.map Watch.code) := by
  induction wr with
  | nil =>
    intro ids st rest _ h
    simp only [stocksLoop, Except.ok.injEq, Prod.mk.injEq] at h
    obtain ⟨rfl, rfl⟩ := h
    simp
  | cons w ws ih =>
    intro ids st rest hN h
    rw [stocksLoop] at h
    by_cases hin : w.code ∈ ids
    · rw [if_pos hin] at h
      cases hq : normalizeQuantity w.quantity with
      | none => rw [hq] at h; exact absurd h (by simp)
      | some q =>
        rw [hq] at h
        cases hrec : stocksLoop ws (ids.erase w.code) with
        | error e => rw [hrec] at h; exact absurd h (by simp)
        | ok p =>
          obtain ⟨st', ids'⟩ := p
          rw [hrec] at h
          simp only [Except.ok.injEq, Prod.mk.injEq] at h
          obtain ⟨rfl, rfl⟩ := h
          have hrest := ih _ _ _ (hN.erase w.code) hrec
          rw [hN.erase_eq_filter w.code] at hrest
          rw [hrest, List.filter_filter]
          apply List.filter_congr
          intro i _
          by_cases h1 : i = w.code <;> by_cases h2 : i ∈ List.map Watch.code ws <;>
            simp [h1, h2]
    · rw [if_neg hin] at h
      have hrest := ih ids st rest hN h
      rw [hrest]
      apply List.filter_congr
      intro i hi
      have hne : i ≠ w.code := fun habs => hin (habs ▸ hi)
      simp only [List.map_cons, List.mem_cons]
      rw [decide_eq_decide]
      constructor
      · intro hni hmem
        rcases hmem with hmem | hmem
        · exact hne hmem
        · exact hni hmem
      · intro hni hmem
        exact hni (Or.inr hmem)

end seller

namespace seller

theorem stocksLoop_matched (wr : List Watch) : ∀ ids st rest,
    (wr.map Watch.code).Nodup → stocksLoop wr ids = .ok (st, rest) →
    ∀ w ∈ wr, w.code ∈ ids →
    ∃ q, normalizeQuantity w.quantity = some q ∧ Stock.mk w.code q ∈ st := by
  induction wr with
  | nil => intro ids st rest _ _ w hw; exact absurd hw (List.not_mem_nil w)
  | cons w ws ih =>
    intro ids st rest hcodes h v hv hvin
    rw [List.map_cons, List.nodup_cons] at hcodes
    rw [stocksLoop] at h
    by_cases hin : w.code ∈ ids
    · rw [if_pos hin] at h
      cases hq : normalizeQuantity w.quantity with
      | none => rw [hq] at h; exact absurd h (by simp)
      | some q =>
        rw [hq] at h
        cases hrec : stocksLoop ws (ids.erase w.code) with
        | error e => rw [hrec] at h; exact absurd h (by simp)
        | ok p =>
          obtain ⟨st', ids'⟩ := p
          rw [hrec] at h
          simp only [Except.ok.injEq, Prod.mk.injEq] at h
          obtain ⟨rfl, rfl⟩ := h
          rcases List.mem_cons.mp hv with rfl | hv
          · exact ⟨q, hq, List.mem_cons_self _ _⟩
          · have hvcode : v.code ∈ List.map Watch.code ws := List.mem_map_of_mem _ hv
            have hne : v.code ≠ w.code := fun habs => hcodes.1 (habs ▸ hvcode)
            have hvin' : v.code ∈ ids.erase w.code :=
              (List.mem_erase_of_ne hne).mpr hvin
            obtain ⟨q', hq', hmem⟩ := ih _ _ _ hcodes.2 hrec v hv hvin'
            exact ⟨q', hq', List.mem_cons_of_mem _ hmem⟩
    · rw [if_neg hin] at h
      rcases List.mem_cons.mp hv with rfl | hv
      · exact absurd hvin hin
      · exact ih _ _ _ hcodes.2 h v hv hvin

theorem stocksLoop_unmatched (wr : List Watch) : ∀ ids st rest,
    stocksLoop wr ids = .ok (st, rest) →
    ∀ i ∈ ids, i ∉ wr.map Watch.code → i ∈ rest := by
  induction wr with
  | nil =>
    intro ids st rest h i hi _
    simp only [stocksLoop, Except.ok.injEq, Prod.mk.injEq] at h
    obtain ⟨rfl, rfl⟩ := h
    exact hi
  | cons w ws ih =>
    intro ids st rest h i hi hni
    rw [List.map_cons] at hni
    have hne : i ≠ w.code := fun habs => hni (habs ▸ List.mem_cons_self _ _)
    have hni' : i ∉ List.map Watch.code ws := fun habs => hni (List.mem_cons_of_mem _ habs)
    rw [stocksLoop] at h
    by_cases hin : w.code ∈ ids
    · rw [if_pos hin] at h
      cases hq : normalizeQuantity w.quantity with
      | none => rw [hq] at h; exact absurd h (by simp)
      | some q =>
        rw [hq] at h
        cases hrec : stocksLoop ws (ids.erase w.code) with
        | error e => rw [hrec] at h; exact absurd h (by simp)
        | ok p =>
          obtain ⟨st', ids'⟩ := p
          rw [hrec] at h
          simp only [Except.ok.injEq, Prod.mk.injEq] at h
          obtain ⟨rfl, rfl⟩ := h
          exact ih _ _ _ hrec i ((List.mem_erase_of_ne hne).mpr hi) hni'
    · rw [if_neg hin] at h
      exact ih _ _ _ h i hi hni'

end seller

theorem market_stocksLoop_eq (wh date : String) (wr : List Watch) : ∀ ids,
    market.stocksLoop wh date wr ids =
      (seller.stocksLoop wr ids).map
        (fun p => (p.1.map (toMarketStock wh date), p.2)) := by
  induction wr with
  | nil => intro ids; rfl
  | cons w ws ih =>
    intro ids
    rw [market.stocksLoop, seller.stocksLoop]
    by_cases hin : w.code ∈ ids
    · rw [if_pos hin, if_pos hin]
      cases hq : normalizeQuantity w.quantity with
      | none => rfl
      | some q =>
        rw [ih (ids.erase w.code)]
        cases hrec : seller.stocksLoop ws (ids.erase w.code) with
        | error e => rfl
        | ok p => rfl
    · rw [if_neg hin, if_neg hin]
      exact ih ids

theorem market_create_stocks_eq (wh date : String) (wr : List Watch) (ids : List String) :
    market.create_stocks wr ids wh date =
      (seller.create_stocks wr ids).map
        (fun p => (p.1.map (toMarketStock wh date), p.2)) := by
  rw [market.create_stocks, seller.create_stocks, market_stocksLoop_eq]
  cases hrec : seller.stocksLoop wr ids with
  | error e => rfl
  | ok p =>
    obtain ⟨st, rest⟩ := p
    simp only [Except.map, Except.ok.injEq, Prod.mk.injEq]
    refine ⟨?_, trivial⟩
    rw [List.map_append, List.map_map]
    rfl

namespace seller

theorem create_stocks_perm (wr : List Watch) (ids : List String)
    (st : List Stock) (rest : List String) (h : create_stocks wr ids = .ok (st, rest)) :
    (st.map Stock.offer_id).Perm ids := by
  rw [create_stocks] at h
  cases hrec : stocksLoop wr ids with
  | error e => rw [hrec] at h; exact absurd h (by simp)
  | ok p =>
    obtain ⟨st0, rest0⟩ := p
    rw [hrec] at h
    simp only [Except.ok.injEq, Prod.mk.injEq] at h
    obtain ⟨rfl, rfl⟩ := h
    rw [List.map_append, List.map_map]
    have : (Stock.offer_id ∘ fun offer_id => Stock.mk offer_id 0) = id := rfl
    rw [this, List.map_id]
    exact stocksLoop_perm wr ids st0 rest0 hrec

theorem create_stocks_rest (wr : List Watch) (ids : List String)
    (st : List Stock) (rest : List String) (hN : ids.Nodup)
    (h : create_stocks wr ids = .ok (st, rest)) :
    rest = ids.filter (fun i => i ∉ wr.map Watch.code) := by
  rw [create_stocks] at h
  cases hrec : stocksLoop wr ids with
  | error e => rw [hrec] at h; exact absurd h (by simp)
  | ok p =>
    obtain ⟨st0, rest0⟩ := p
    rw [hrec] at h
    simp only [Except.ok.injEq, Prod.mk.injEq] at h
    obtain ⟨rfl, rfl⟩ := h
    exact stocksLoop_rest wr ids st0 rest0 hN hrec

theorem create_stocks_matched (wr : List Watch) (ids : List String)
    (st : List Stock) (rest : List String) (hcodes : (wr.map Watch.code).Nodup)
    (h : create_stocks wr ids = .ok (st, rest)) :
    ∀ w ∈ wr, w.code ∈ ids →
    ∃ q, normalizeQuantity w.quantity = some q ∧ Stock.mk w.code q ∈ st := by
  rw [create_stocks] at h
  cases hrec : stocksLoop wr ids with
  | error e => rw [hrec] at h; exact absurd h (by simp)
  | ok p =>
    obtain ⟨st0, rest0⟩ := p
    rw [hrec] at h
    simp only [Except.ok.injEq, Prod.mk.injEq] at h
    obtain ⟨rfl, rfl⟩ := h
    intro w hw hwin
    obtain ⟨q, hq, hmem⟩ := stocksLoop_matched wr ids st0 rest0 hcodes hrec w hw hwin
    exact ⟨q, hq, List.mem_append_left _ hmem⟩

theorem create_stocks_unmatched (wr : List Watch) (ids : List String)
    (st : List Stock) (rest : List String)
    (h : create_stocks wr ids = .ok (st, rest)) :
    ∀ i ∈ ids, i ∉ wr.map Watch.code → Stock.mk i 0 ∈ st := by
  rw [create_stocks] at h
  cases hrec : stocksLoop wr ids with
  | error e => rw [hrec] at h; exact absurd h (by simp)
  | ok p =>
    obtain ⟨st0, rest0⟩ := p
    rw [hrec] at h
    simp only [Except.ok.injEq, Prod.mk.injEq] at h
    obtain ⟨rfl, rfl⟩ := h
    intro i hi hni
    have hrest : i ∈ rest0 := stocksLoop_unmatched wr ids st0 rest0 hrec i hi hni
    exact List.mem_append_right _ (List.mem_map_of_mem _ hrest)

theorem create_prices_eq (wr : List Watch) (ids : List String) :
    create_prices wr ids = (wr.filter (fun w => w.code ∈ ids)).map mkPrice := by
  induction wr with
  | nil => rfl
  | cons w ws ih =>
    rw [create_prices, List.filter_cons]
    by_cases hin : w.code ∈ ids
    · rw [if_pos hin, if_pos (by simpa using hin), List.map_cons, ih]
    · rw [if_neg hin, if_neg (by simpa using hin), ih]

theorem create_prices_nil_of_disjoint (wr : List Watch) (ids : List String)
    (h : ∀ w ∈ wr, w.code ∉ ids) : create_prices wr ids = [] := by
  rw [create_prices_eq]
  have : wr.filter (fun w => w.code ∈ ids) = [] := by
    rw [List.filter_eq_nil_iff]
    intro w hw
    simpa using h w hw
  rw [this, List.map_nil]

end seller

theorem market_create_prices_ids (wr : List Watch) (ids : List String)
    (ps : List market.Price) (h : market.create_prices wr ids = .ok ps) :
    ps.map market.Price.id = (wr.filter (fun w => w.code ∈ ids)).map Watch.code := by
  induction wr generalizing ps with
  | nil =>
    simp only [market.create_prices, Except.ok.injEq] at h
    rw [← h]
    rfl
  | cons w ws ih =>
    rw [market.create_prices] at h
    rw [List.filter_cons]
    by_cases hin : w.code ∈ ids
    · rw [if_pos hin] at h
      rw [if_pos (by simpa using hin)]
      cases hq : pyInt? (price_conversion w.price) with
      | none => rw [hq] at h; exact absurd h (by simp)
      | some v =>
        rw [hq] at h
        cases hrec : market.create_prices ws ids with
        | error e => rw [hrec] at h; exact absurd h (by simp)
        | ok ps' =>
          rw [hrec] at h
          simp only [Except.ok.injEq] at h
          rw [← h, List.map_cons, List.map_cons, ih ps' hrec]
    · rw [if_neg hin] at h
      rw [if_neg (by simpa using hin)]
      exact ih ps h

/-! ## Claims -/

/-- C4: the quantity normalizer applied inside `create_stocks` of both
modules maps `">10"` to 100, `"1"` to 0, and any other numeric string to
its parsed integer value (e.g. `"42"` to 42); every non-numeric,
non-sentinel input fails with a parse error (`none`) rather than producing
a quantity. -/
theorem claim_C4 :
    normalizeQuantity ">10" = some 100 ∧
    normalizeQuantity "1" = some 0 ∧
    normalizeQuantity "42" = some 42 ∧
    (∀ s, isNumericString s = true → s ≠ "1" →
      normalizeQuantity s = some (numericValue s)) ∧
    (∀ s, s ≠ ">10" → pyInt? s = none → normalizeQuantity s = none) := by
  refine ⟨by decide, by decide, by decide, ?_, ?_⟩
  · intro s hnum hne1
    have hne10 : s ≠ ">10" := by
      rintro rfl
      exact absurd hnum (by decide)
    rw [normalizeQuantity, if_neg hne10, if_neg hne1]
    exact pyInt_on_digits s hnum
  · intro s hne10 hfail
    have hne1 : s ≠ "1" := by
      rintro rfl
      exact absurd hfail (by decide)
    rw [normalizeQuantity, if_neg hne10, if_neg hne1, hfail]

/-- Witness for C4 at concrete inputs: `"7"` is numeric and normalizes to
its value, `"abc"` is non-numeric, non-sentinel and fails. -/
theorem claim_C4_witness :
    normalizeQuantity "7" = some 7 ∧ normalizeQuantity "abc" = none := by
  constructor
  · have h := claim_C4.2.2.2.1 "7" (by decide) (by decide)
    exact h.trans (by decide)
  · exact claim_C4.2.2.2.2 "abc" (by decide) (by decide)

/-- C5: `price_conversion` equals the reference algorithm (keep the prefix
before the first `'.'`, delete every non-digit character from it); on the
spec's examples it yields `"5990"` and `"12890"`, and an input with no
digit before the first `'.'` yields `""` without failing. -/
theorem claim_C5 :
    (∀ p, price_conversion p = specPriceNormalize p) ∧
    price_conversion "5'990.00 руб." = "5990" ∧
    price_conversion "12,890.50" = "12890" ∧
    (∀ p, ((pySplitHead p '.').toList.all (fun c => !c.isDigit)) = true →
      price_conversion p = "") := by
  refine ⟨?_, by decide, by decide, ?_⟩
  · intro p
    rw [price_conversion, reSubKeepDigits, specPriceNormalize, pySplitHead]
    have : (fun c => decide ('0' ≤ c ∧ c ≤ '9')) = Char.isDigit := funext char_digit_iff
    rw [this]
    rfl
  · intro p h
    rw [price_conversion, reSubKeepDigits]
    have hnil : (pySplitHead p '.').toList.filter (fun c => decide ('0' ≤ c ∧ c ≤ '9')) = [] := by
      rw [List.filter_eq_nil_iff]
      intro c hc
      have hcd := List.all_eq_true.mp h c hc
      rw [char_digit_iff c]
      simpa using hcd
    rw [hnil]

/-- Witness for C5 at a concrete input with no digits before the first
dot. -/
theorem claim_C5_witness : price_conversion "руб." = "" :=
  claim_C5.2.2.2 "руб." (by decide)

/-- C6: for every list of length `L` and chunk size `n > 0`, `divide`
yields exactly `⌈L/n⌉ = (L + n - 1) / n` chunks, every chunk except
possibly the last has length `n`, the chunk lengths sum to `L`, and
concatenating the chunks reproduces the list. -/
theorem claim_C6 {α : Type} (l : List α) (n : Nat) (hn : 0 < n) :
    (divide l n).length = (l.length + n - 1) / n ∧
    (∀ c ∈ (divide l n).dropLast, c.length = n) ∧
    (∀ c ∈ divide l n, c.length ≤ n) ∧
    ((divide l n).map List.length).sum = l.length ∧
    (divide l n).flatten = l :=
  ⟨divide_length l n hn, divide_dropLast l n, divide_chunk_le l n,
    divide_sum_length l n hn, divide_flatten l n hn⟩

/-- Witness for C6 at `l = [1,2,3,4,5]`, `n = 2`. -/
theorem claim_C6_witness :
    (0 : Nat) < 2 ∧ (divide [1, 2, 3, 4, 5] 2).length = 3 ∧
    (divide [1, 2, 3, 4, 5] 2).flatten = [1, 2, 3, 4, 5] :=
  ⟨by decide, (claim_C6 [1, 2, 3, 4, 5] 2 (by decide)).1.trans (by decide),
    (claim_C6 [1, 2, 3, 4, 5] 2 (by decide)).2.2.2.2⟩

/-- C1: for every duplicate-free offer-id list and every feed-record list
with pairwise-distinct codes, the stock payload returned by
`create_stocks` of both modules has exactly `|S|` entries, exactly one per
offer id with no duplicate ids; each feed-matched id carries the record's
normalised quantity and every unmatched id carries quantity 0. -/
theorem claim_C1 (wr : List Watch) (ids : List String) (wh date : String)
    (st : List seller.Stock) (rest : List String)
    (mst : List market.Stock) (mrest : List String)
    (hids : ids.Nodup) (hcodes : (wr.map Watch.code).Nodup)
    (hs : seller.create_stocks wr ids = .ok (st, rest))
    (hm : market.create_stocks wr ids wh date = .ok (mst, mrest)) :
    st.length = ids.length ∧ (st.map seller.Stock.offer_id).Perm ids ∧
    (st.map seller.Stock.offer_id).Nodup ∧
    mst.length = ids.length ∧ (mst.map market.Stock.sku).Perm ids ∧
    (mst.map market.Stock.sku).Nodup ∧
    (∀ w ∈ wr, w.code ∈ ids → ∃ q, normalizeQuantity w.quantity = some q ∧
      seller.Stock.mk w.code q ∈ st ∧ market.mkStock wh date w.code q ∈ mst) ∧
    (∀ i ∈ ids, i ∉ wr.map Watch.code →
      seller.Stock.mk i 0 ∈ st ∧ market.mkStock wh date i 0 ∈ mst) := by
  have hbridge := market_create_stocks_eq wh date wr ids
  rw [hs] at hbridge
  rw [hbridge] at hm
  simp only [Except.map, Except.ok.injEq, Prod.mk.injEq] at hm
  obtain ⟨rfl, rfl⟩ := hm
  have hperm := seller.create_stocks_perm wr ids st rest hs
  have hmsku : (st.map (toMarketStock wh date)).map market.Stock.sku =
      st.map seller.Stock.offer_id := by
    rw [List.map_map]; rfl
  refine ⟨?_, hperm, hperm.nodup_iff.mpr hids, ?_, ?_, ?_, ?_, ?_⟩
  · have := hperm.length_eq
    rwa [List.length_map] at this
  · have := hperm.length_eq
    rw [List.length_map] at this
    rw [List.length_map]
    exact this
  · rw [hmsku]; exact hperm
  · rw [hmsku]; exact hperm.nodup_iff.mpr hids
  · intro w hw hwin
    obtain ⟨q, hq, hmem⟩ := seller.create_stocks_matched wr ids st rest hcodes hs w hw hwin
    exact ⟨q, hq, hmem, List.mem_map_of_mem (toMarketStock wh date) hmem⟩
  · intro i hi hni
    have hmem := seller.create_stocks_unmatched wr ids st rest hs i hi hni
    exact ⟨hmem, List.mem_map_of_mem (toMarketStock wh date) hmem⟩

/-- Witness for C1 at the spec's end-to-end scenario: ids `["001","002"]`,
one feed record for `"001"` with quantity `"10"`. -/
theorem claim_C1_witness :
    (["001", "002"] : List String).Nodup ∧
    seller.create_stocks [⟨"001", "10", "p"⟩] ["001", "002"] =
      .ok ([⟨"001", 10⟩, ⟨"002", 0⟩], ["002"]) ∧
    (([⟨"001", 10⟩, ⟨"002", 0⟩] : List seller.Stock).map
      seller.Stock.offer_id).Perm ["001", "002"] := by
  refine ⟨by decide, by rfl, ?_⟩
  exact (claim_C1 [⟨"001", "10", "p"⟩] ["001", "002"] "w" "d"
    [⟨"001", 10⟩, ⟨"002", 0⟩] ["002"]
    [market.mkStock "w" "d" "001" 10, market.mkStock "w" "d" "002" 0] ["002"]
    (by decide) (by decide) (by rfl) (by rfl)).2.1

/-- C9 counterexample: with one feed record of code `"a"` and the
offer-id list `["a", "a"]`, `create_stocks` succeeds and leaves the
caller's list as `["a"]` — but `"a"` is feed-matched, so the final list is
NOT the original with the feed-matched ids removed (a matched id
remains). -/
theorem claim_C9_counterexample :
    seller.create_stocks [⟨"a", "5", "1.0"⟩] ["a", "a"] =
      .ok ([⟨"a", 5⟩, ⟨"a", 0⟩], ["a"]) ∧
    "a" ∈ ([⟨"a", "5", "1.0"⟩] : List Watch).map Watch.code ∧
    (["a"] : List String) ≠
      (["a", "a"] : List String).filter
        (fun i => i ∉ ([⟨"a", "5", "1.0"⟩] : List Watch).map Watch.code) := by
  refine ⟨by rfl, by decide, by decide⟩

/-- C9 amended: for every feed-record list and every DUPLICATE-FREE
offer-id list, after `create_stocks` (both modules) returns, the caller's
offer-id list equals the original filtered to the ids not occurring among
the feed codes — exactly the feed-matched ids are removed and the
unmatched ids remain in their original order (the result is a sublist of
the original). -/
theorem claim_C9 (wr : List Watch) (ids : List String) (wh date : String)
    (st : List seller.Stock) (rest : List String)
    (mst : List market.Stock) (mrest : List String)
    (hids : ids.Nodup)
    (hs : seller.create_stocks wr ids = .ok (st, rest))
    (hm : market.create_stocks wr ids wh date = .ok (mst, mrest)) :
    rest = ids.filter (fun i => i ∉ wr.map Watch.code) ∧
    mrest = ids.filter (fun i => i ∉ wr.map Watch.code) ∧
    rest.Sublist ids := by
  have hbridge := market_create_stocks_eq wh date wr ids
  rw [hs] at hbridge
  rw [hbridge] at hm
  simp only [Except.map, Except.ok.injEq, Prod.mk.injEq] at hm
  obtain ⟨-, rfl⟩ := hm
  have hrest := seller.create_stocks_rest wr ids st rest hids hs
  exact ⟨hrest, hrest, hrest ▸ List.filter_sublist ids⟩

/-- Witness for C9 at a concrete duplicate-free input. -/
theorem claim_C9_witness :
    seller.create_stocks [⟨"a", "5", "1.0"⟩] ["a", "b"] =
      .ok ([⟨"a", 5⟩, ⟨"b", 0⟩], ["b"]) ∧
    (["b"] : List String) =
      (["a", "b"] : List String).filter
        (fun i => i ∉ ([⟨"a", "5", "1.0"⟩] : List Watch).map Watch.code) := by
  refine ⟨by rfl, ?_⟩
  exact (claim_C9 [⟨"a", "5", "1.0"⟩] ["a", "b"] "w" "d" [⟨"a", 5⟩, ⟨"b", 0⟩] ["b"]
    [market.mkStock "w" "d" "a" 5, market.mkStock "w" "d" "b" 0] ["b"]
    (by decide) (by rfl) (by rfl)).1

/-- C10: the price payload of both modules has an entry exactly for the
feed records whose code is in the offer-id list; no entry is synthesised
for an unmatched offer id, and a feed record whose code is not in the
offer-id list appears in neither the price payload nor the stock
payload. -/
theorem claim_C10 (wr : List Watch) (ids : List String) :
    ((seller.create_prices wr ids).map seller.Price.offer_id =
      (wr.filter (fun w => w.code ∈ ids)).map Watch.code) ∧
    (∀ e ∈ seller.create_prices wr ids, e.offer_id ∈ ids) ∧
    (∀ i ∈ ids, i ∉ wr.map Watch.code →
      i ∉ (seller.create_prices wr ids).map seller.Price.offer_id) ∧
    (∀ ps, market.create_prices wr ids = .ok ps →
      ps.map market.Price.id = (wr.filter (fun w => w.code ∈ ids)).map Watch.code) ∧
    (∀ w ∈ wr, w.code ∉ ids →
      w.code ∉ (seller.create_prices wr ids).map seller.Price.offer_id ∧
      ∀ st rest, seller.create_stocks wr ids = .ok (st, rest) →
        w.code ∉ st.map seller.Stock.offer_id) := by
  have hids_eq : (seller.create_prices wr ids).map seller.Price.offer_id =
      (wr.filter (fun w => w.code ∈ ids)).map Watch.code := by
    rw [seller.create_prices_eq, List.map_map]
    rfl
  have hmem_filter_code : ∀ c, c ∈ (wr.filter (fun w => w.code ∈ ids)).map Watch.code →
      c ∈ ids := by
    intro c hc
    obtain ⟨v, hv, rfl⟩ := List.mem_map.mp hc
    have := List.of_mem_filter hv
    simpa using this
  refine ⟨hids_eq, ?_, ?_, market_create_prices_ids wr ids, ?_⟩
  · intro e he
    have : e.offer_id ∈ (seller.create_prices wr ids).map seller.Price.offer_id :=
      List.mem_map_of_mem _ he
    rw [hids_eq] at this
    exact hmem_filter_code _ this
  · intro i _ hni habs
    rw [hids_eq] at habs
    obtain ⟨v, hv, rfl⟩ := List.mem_map.mp habs
    exact hni (List.mem_map_of_mem _ (List.mem_of_mem_filter hv))
  · intro w hw hnin
    constructor
    · intro habs
      rw [hids_eq] at habs
      exact hnin (hmem_filter_code _ habs)
    · intro st rest hs habs
      have hperm := seller.create_stocks_perm wr ids st rest hs
      exact hnin (hperm.mem_iff.mp habs)

/-- Witness for C10: a feed record whose code is absent from the offer-id
list is dropped from both payloads. -/
theorem claim_C10_witness :
    ("z" : String) ∉ (seller.create_prices [⟨"z", "5", "1.0"⟩] ["a"]).map
      seller.Price.offer_id ∧
    ("z" : String) ∉ ([⟨"a", 0⟩] : List seller.Stock).map seller.Stock.offer_id := by
  refine ⟨?_, ?_⟩
  · exact ((claim_C10 [⟨"z", "5", "1.0"⟩] ["a"]).2.2.2.2 ⟨"z", "5", "1.0"⟩
      (by decide) (by decide)).1
  · exact ((claim_C10 [⟨"z", "5", "1.0"⟩] ["a"]).2.2.2.2 ⟨"z", "5", "1.0"⟩
      (by decide) (by decide)).2 [⟨"a", 0⟩] ["a"] (by rfl)

/-- After `seller.create_stocks` has consumed a duplicate-free offer-id
list, re-running `create_prices` on the leftover list yields nothing. -/
theorem seller_prices_after_stocks_nil (wr : List Watch) (ids : List String)
    (st : List seller.Stock) (rest : List String) (hids : ids.Nodup)
    (hs : seller.create_stocks wr ids = .ok (st, rest)) :
    seller.create_prices wr rest = [] := by
  have hrest := seller.create_stocks_rest wr ids st rest hids hs
  have hdisj : ∀ w ∈ wr, w.code ∉ rest := by
    intro w hw habs
    rw [hrest] at habs
    have hmem := List.of_mem_filter habs
    simp only [decide_eq_true_eq] at hmem
    exact hmem (List.mem_map_of_mem _ hw)
  exact seller.create_prices_nil_of_disjoint wr rest hdisj

/-- The trace of `seller.main` on a duplicate-free offer-id list contains
no price-submission event. -/
theorem seller_main_no_price_events (wr : List Watch) (ids : List String)
    (st : List seller.Stock) (rest : List String) (hids : ids.Nodup)
    (hs : seller.create_stocks wr ids = .ok (st, rest)) :
    ∀ tr, seller.main_trace wr ids = .ok tr →
      ∀ b, seller.Ev.submitPrices b ∈ tr → False := by
  have hnil := seller_prices_after_stocks_nil wr ids st rest hids hs
  intro tr htr b hb
  rw [seller.main_trace, hs] at htr
  simp only [hnil, Except.ok.injEq] at htr
  subst htr
  have hdg : divide ([] : List seller.Price) 900 = [] := rfl
  rw [hdg, List.map_nil, List.append_nil] at hb
  rcases List.mem_append.mp hb with hb | hb
  · simp at hb
  · obtain ⟨c, -, habs⟩ := List.mem_map.mp hb
    exact absurd habs (by simp)

/-- C3: in the Ozon driver, `create_stocks` removes every feed-matched id
from the caller's `offer_ids` list before `create_prices` is called on the
same list, so for every duplicate-free offer-id list the subsequent
`create_prices` returns `[]`, and `seller.main` never submits a non-empty
price update (its trace contains no price-submission event at all). -/
theorem claim_C3 (wr : List Watch) (ids : List String)
    (st : List seller.Stock) (rest : List String) (hids : ids.Nodup)
    (hs : seller.create_stocks wr ids = .ok (st, rest)) :
    seller.create_prices wr rest = [] ∧
    ∀ tr, seller.main_trace wr ids = .ok tr →
      ∀ b, seller.Ev.submitPrices b ∈ tr → False :=
  ⟨seller_prices_after_stocks_nil wr ids st rest hids hs,
    seller_main_no_price_events wr ids st rest hids hs⟩

/-- Witness for C3 at a concrete run: one feed record matching the single
offer id; the post-`create_stocks` price payload is empty. -/
theorem claim_C3_witness :
    seller.create_prices [⟨"a", "5", "1.0"⟩] [] = [] :=
  (claim_C3 [⟨"a", "5", "1.0"⟩] ["a"] [⟨"a", 5⟩] [] (by decide) (by rfl)).1

/-- C2: the claim says each driver's `main` performs "fetch feed, fetch
offer ids, reconcile stocks, submit stocks, reconcile prices, submit
prices", the price submission being actually executed.  Evaluating both
drivers at a concrete run (one feed record matching the single offer id of
each campaign) shows the opposite: `seller.main` fetches offer ids BEFORE
the feed and issues no price submission (its price payload is built from
the offer-id list that `create_stocks` emptied), and `market.main` issues
no price submission at all (its `upload_prices` coroutines are never
awaited). -/
theorem claim_C2 :
    seller.main_trace [⟨"a", "5", "100.0"⟩] ["a"] =
      .ok [seller.Ev.fetchOffers, seller.Ev.fetchFeed,
        seller.Ev.submitStocks [⟨"a", 5⟩]] ∧
    market.main_trace [⟨"a", "5", "100.0"⟩] ["a"] ["a"] "w1" "w2" "d" =
      .ok [market.Ev.fetchFeed, market.Ev.fetchOffers "FBS",
        market.Ev.submitStocks "FBS" [market.mkStock "w1" "d" "a" 5],
        market.Ev.fetchOffers "DBS",
        market.Ev.submitStocks "DBS" [market.mkStock "w2" "d" "a" 5]] :=
  ⟨by rfl, by rfl⟩

/-- C7 counterexample: in a concrete Yandex.Market run with one feed
record matching the single offer id, the price payload the reconciler
would produce is non-empty, yet the run's trace contains no
price-submission event at all (the un-awaited `upload_prices` never runs)
— refuting "in every run, price payloads are submitted in chunks of
1000/500 items". -/
theorem claim_C7_counterexample :
    market.create_prices [⟨"a", "5", "100.0"⟩] ["a"] = .ok [⟨"a", ⟨100, "RUR"⟩⟩] ∧
    market.main_trace [⟨"a", "5", "100.0"⟩] ["a"] ["a"] "w1" "w2" "d" =
      .ok [market.Ev.fetchFeed, market.Ev.fetchOffers "FBS",
        market.Ev.submitStocks "FBS" [market.mkStock "w1" "d" "a" 5],
        market.Ev.fetchOffers "DBS",
        market.Ev.submitStocks "DBS" [market.mkStock "w2" "d" "a" 5]] :=
  ⟨by rfl, by rfl⟩

/-- C7 amended: stock payloads are chunked by 100 (Ozon) and 2000
(Yandex.Market), with only the last chunk smaller; the `upload_prices`
helpers chunk price payloads by 1000 (Ozon) and 500 (Yandex.Market); but
the drivers' mains never submit a non-empty price batch — the Ozon main's
price payload is empty (so its 900-sized price loop issues nothing) and
the Yandex.Market main never executes a price push. -/
theorem claim_C7 (wr : List Watch) (ids : List String) (wh : String) :
    (∀ bs, seller.upload_stocks_batches wr ids = .ok bs →
      (∀ b ∈ bs, b.length ≤ 100) ∧ ∀ b ∈ bs.dropLast, b.length = 100) ∧
    (∀ bs wh2 d2, market.upload_stocks_batches wr ids wh2 d2 = .ok bs →
      (∀ b ∈ bs, b.length ≤ 2000) ∧ ∀ b ∈ bs.dropLast, b.length = 2000) ∧
    (∀ b ∈ seller.upload_prices_batches wr ids, b.length ≤ 1000) ∧
    (∀ b ∈ (seller.upload_prices_batches wr ids).dropLast, b.length = 1000) ∧
    (∀ bs, market.upload_prices_batches wr ids = .ok bs →
      (∀ b ∈ bs, b.length ≤ 500) ∧ ∀ b ∈ bs.dropLast, b.length = 500) ∧
    (ids.Nodup → ∀ tr, seller.main_trace wr ids = .ok tr →
      ∀ b, seller.Ev.submitPrices b ∈ tr → b = []) ∧
    (∀ dbs_ids wh2 d2 tr, market.main_trace wr ids dbs_ids wh wh2 d2 = .ok tr →
      ∀ c b, market.Ev.submitPrices c b ∈ tr → False) := by
  refine ⟨?_, ?_, ?_, ?_, ?_, ?_, ?_⟩
  · intro bs hbs
    rw [seller.upload_stocks_batches] at hbs
    cases hcs : seller.create_stocks wr ids with
    | error e => rw [hcs] at hbs; exact absurd hbs (by simp)
    | ok p =>
      obtain ⟨st, rest⟩ := p
      rw [hcs] at hbs
      simp only [Except.ok.injEq] at hbs
      subst hbs
      exact ⟨divide_chunk_le st 100, divide_dropLast st 100⟩
  · intro bs wh2 d2 hbs
    rw [market.upload_stocks_batches] at hbs
    cases hcs : market.create_stocks wr ids wh2 d2 with
    | error e => rw [hcs] at hbs; exact absurd hbs (by simp)
    | ok p =>
      obtain ⟨st, rest⟩ := p
      rw [hcs] at hbs
      simp only [Except.ok.injEq] at hbs
      subst hbs
      exact ⟨divide_chunk_le st 2000, divide_dropLast st 2000⟩
  · exact divide_chunk_le _ 1000
  · exact divide_dropLast _ 1000
  · intro bs hbs
    rw [market.upload_prices_batches] at hbs
    cases hcp : market.create_prices wr ids with
    | error e => rw [hcp] at hbs; exact absurd hbs (by simp)
    | ok ps =>
      rw [hcp] at hbs
      simp only [Except.ok.injEq] at hbs
      subst hbs
      exact ⟨divide_chunk_le ps 500, divide_dropLast ps 500⟩
  · intro hids tr htr b hb
    cases hcs : seller.create_stocks wr ids with
    | error e =>
      rw [seller.main_trace, hcs] at htr
      exact absurd htr (by simp)
    | ok p =>
      obtain ⟨st, rest⟩ := p
      exact absurd hb (fun hb =>
        seller_main_no_price_events wr ids st rest hids hcs tr htr b hb)
  · intro dbs_ids wh2 d2 tr htr c b hb
    rw [market.main_trace] at htr
    cases h1 : market.create_stocks wr ids wh d2 with
    | error e => rw [h1] at htr; exact absurd htr (by simp)
    | ok p1 =>
      obtain ⟨st1, r1⟩ := p1
      cases h2 : market.create_stocks wr dbs_ids wh2 d2 with
      | error e => rw [h1, h2] at htr; exact absurd htr (by simp)
      | ok p2 =>
        obtain ⟨st2, r2⟩ := p2
        rw [h1, h2] at htr
        simp only [Except.ok.injEq] at htr
        subst htr
        simp only [List.mem_append, List.mem_cons, List.mem_map] at hb
        rcases hb with ((hb | hb) | ⟨d, -, habs⟩) | (hb | ⟨d, -, habs⟩) <;>
          simp_all

/-- Witness for C7 at a concrete run: a single matched record gives one
stock batch of one entry, within the 100-item Ozon limit. -/
theorem claim_C7_witness :
    seller.upload_stocks_batches [⟨"a", "5", "1.0"⟩] ["a"] = .ok [[⟨"a", 5⟩]] ∧
    ∀ b ∈ [[(⟨"a", 5⟩ : seller.Stock)]], b.length ≤ 100 := by
  refine ⟨by rfl, ?_⟩
  exact ((claim_C7 [⟨"a", "5", "1.0"⟩] ["a"] "w").1 [[⟨"a", 5⟩]] (by rfl)).1

/-- C8 counterexample: in the Yandex.Market driver, `download_stock()`
runs before the `try` block, so a feed failure (e.g. a bad ZIP archive)
escapes the run uncaught instead of being printed with a tag. -/
theorem claim_C8_counterexample :
    market.main_model (.error (.other "zipfile.BadZipFile")) (.ok ["a"]) (.ok ["a"])
      (.ok ()) "w1" "w2" "d" = Outcome.uncaught (.other "zipfile.BadZipFile") := by
  rfl

/-- Any outcome produced by the shared `try`/`except` shape is caught and
tagged, never uncaught. -/
theorem handled_ne_uncaught (x : Except PyExc Unit) (e : PyExc) :
    (match x with
      | .ok _ => Outcome.ok
      | .error err => Outcome.printed (exceptTag err)) ≠ Outcome.uncaught e := by
  cases x <;> simp

/-- C8 amended: in the Ozon driver every exception raised by a step of the
run is caught exactly once by the top-level handler and printed with its
tag; in the Yandex.Market driver the same holds for every step inside the
`try` block, but an exception raised by the feed fetch (which runs before
the `try`) escapes uncaught.  The tags are the three fixed strings of the
`except` clauses, and the run ends either way (no retry). -/
theorem claim_C8 :
    (∀ offers feed push e, seller.main_model offers feed push ≠ Outcome.uncaught e) ∧
    (∀ feed push e, seller.main_model (.error e) feed push = .printed (exceptTag e)) ∧
    (∀ wr offersF offersD push w1 w2 d e,
      market.main_model (.ok wr) offersF offersD push w1 w2 d ≠ Outcome.uncaught e) ∧
    (∀ offersF offersD push w1 w2 d e,
      market.main_model (.error e) offersF offersD push w1 w2 d = Outcome.uncaught e) ∧
    (∀ wr offersD push w1 w2 d e,
      market.main_model (.ok wr) (.error e) offersD push w1 w2 d =
        .printed (exceptTag e)) ∧
    exceptTag .readTimeout = "Превышено время ожидания..." ∧
    (∀ m, exceptTag (.connectionError m) = "Ошибка соединения") ∧
    (∀ m, exceptTag (.other m) = "ERROR_2") := by
  refine ⟨?_, ?_, ?_, ?_, ?_, rfl, fun m => rfl, fun m => rfl⟩
  · intro offers feed push e
    unfold seller.main_model
    exact handled_ne_uncaught _ e
  · intro feed push e
    rfl
  · intro wr offersF offersD push w1 w2 d e
    unfold market.main_model
    exact handled_ne_uncaught _ e
  · intro offersF offersD push w1 w2 d e
    rfl
  · intro wr offersD push w1 w2 d e
    rfl

/-- Witness for C8 at concrete runs: a read timeout in the Ozon offer
fetch is printed with the timeout tag; a connection error inside the
Yandex.Market `try` block does not escape uncaught. -/
theorem claim_C8_witness :
    seller.main_model (.error .readTimeout) (.ok []) (.ok ()) =
      .printed "Превышено время ожидания..." ∧
    market.main_model (.ok []) (.error (.connectionError "x")) (.ok []) (.ok ())
      "w1" "w2" "d" ≠ Outcome.uncaught (.connectionError "x") :=
  ⟨(claim_C8.2.1 (.ok []) (.ok ()) .readTimeout).trans (by rfl),
    claim_C8.2.2.1 [] (.error (.connectionError "x")) (.ok []) (.ok ())
      "w1" "w2" "d" (.connectionError "x")⟩
